import Mathlib

/-!
Verification of the gowget concurrent downloader (Go) against its
natural-language specification.  The Go sources (main.go, httpWebGetter.go,
stdPrinter.go) are shallowly embedded below: pure helpers become Lean
functions, the stateful transfer loop becomes an explicit state-passing
step function driven by fuel, and the time-dependent adaptive pacing is
modeled by an oracle supplying the outcome of each speed measurement.
-/

namespace Gowget

/-! ### Constants from main.go -/

/-- Go constant `initialChunkSize = 10 * 1024`: chunk size in bytes before the
first speed measurement finishes. -/
def initialChunkSize : Nat := 10 * 1024

/-- Go constant `chunksPerSecond = 2`: estimated number of chunks downloaded
per second. -/
def chunksPerSecond : Nat := 2

/-- Go constant `defaultFilename = "index.html"`. -/
def defaultFilename : String := "index.html"

/-! ### main.go `main`: argument check

`main` reads `os.Args[1:]`; when the list is empty it calls
`fmt.Printf("gowget: missing url\nUsage: %s [URL]...\n", os.Args[0])`
(which writes to standard output) and exits with code 1; otherwise it
proceeds to `Download`.  The outcome is modeled as a sum. -/

/-- Outcome of the process-boundary argument check in `main`. -/
inductive MainOutcome where
  | usageError (stdoutText stderrText : String) (exitCode : Nat)
  | runDownload (urls : List String)
deriving DecidableEq

/-- The message produced by the `fmt.Printf` call in `main`. -/
def usageMessage (prog : String) : String :=
  "gowget: missing url\nUsage: " ++ prog ++ " [URL]...\n"

/-- Model of `main`: `argv` is `os.Args` (program name first).  `fmt.Printf`
writes to standard output, so the usage text lands in the stdout slot and
the stderr slot stays empty. -/
def mainRun (argv : List String) : MainOutcome :=
  let urls := argv.drop 1
  if urls.isEmpty then
    MainOutcome.usageError (usageMessage (argv.headD "")) "" 1
  else
    MainOutcome.runDownload urls

/-! ### FilenameResolver: `getFilename`

Go uses `regexp.MustCompile("\\w+://[^/]+(?:/([^/]*))*")` with
`FindStringSubmatch` (leftmost-first semantics) and keeps submatch 1, which
is the capture of the last iteration of the starred group, i.e. the last
`/`-delimited segment; an unparticipated group yields `""`.  Because `:` and
`/` are not word characters, `\w+` can only be a maximal word-character run
ending right where `://` starts, and the starred group then extends the
match to the end of the string, so the semantics below transcribe the regex
without backtracking. -/

/-- Go regexp `\w` character class: `[0-9A-Za-z_]` (ASCII). -/
def isWordChar (c : Char) : Bool :=
  c.isAlpha || c.isDigit || c == '_'

/-- Negation of the `/` test, used for `[^/]` runs. -/
def notSlash (c : Char) : Bool :=
  !(c == '/')

/-- The capture of `(?:/([^/]*))*`: Go keeps the last iteration's group.
Fuel-driven transcription of the starred loop; each iteration consumes the
leading `/` plus a maximal `[^/]*` run, so fuel equal to the length of the
remaining input always suffices. -/
def segLoop : Nat → List Char → List Char → List Char
  | 0, cap, _ => cap
  | fuel + 1, cap, rest =>
    match rest with
    | '/' :: tail =>
      segLoop fuel (tail.takeWhile notSlash) (tail.drop (tail.takeWhile notSlash).length)
    | _ => cap

/-- Recognize the literal `://` at the head of the input and return what
follows it. -/
def schemeTail : List Char → Option (List Char)
  | ':' :: '/' :: '/' :: rest => some rest
  | _ => none

/-- Attempt to match `\w+://[^/]+` at the head of `cs`; on success return
the remaining input after the host (which is empty or starts with `/`). -/
def trySchemeRest (cs : List Char) : Option (List Char) :=
  if (cs.takeWhile isWordChar).isEmpty then none
  else
    match schemeTail (cs.drop (cs.takeWhile isWordChar).length) with
    | some rest =>
      if (rest.takeWhile notSlash).isEmpty then none
      else some (rest.dropWhile notSlash)
    | none => none

/-- Leftmost-first search for the scheme pattern: try every start position
from the left, as `FindStringSubmatch` does. -/
def findRest : List Char → Option (List Char)
  | [] => none
  | c :: cs =>
    match trySchemeRest (c :: cs) with
    | some r => some r
    | none => findRest cs

/-- `matches[1]` of the Go regexp: the last segment capture (empty string
both for an empty last segment and for an unparticipated group), or `none`
when the whole regexp does not match. -/
def captureOf (url : List Char) : Option (List Char) :=
  match findRest url with
  | none => none
  | some rest => some (segLoop rest.length [] rest)

/-- The sanitization pass `re.ReplaceAllLiteralString` for
`[^\pL\-.0-9]` with replacement `_`, parametrized by the kept-character
predicate.  Go's `\pL` (all Unicode letters) is an external table; every
claim-relevant input is ASCII, where `keepAscii` below is exact. -/
def sanitizeWith (keep : Char → Bool) (s : List Char) : List Char :=
  s.map fun c => if keep c then c else '_'

/-- ASCII restriction of the kept-character class `[\pL\-.0-9]`. -/
def keepAscii (c : Char) : Bool :=
  c.isAlpha || c == '-' || c == '.' || c.isDigit

/-- Transcription of `getFilename` (main.go): take `matches[1]` when the
regexp matches and the capture is none of `""`, `".."`, `"."`; otherwise
use `defaultFilename`; then sanitize (Go sanitizes the chosen name in both
branches). -/
def getFilenameWith (keep : Char → Bool) (url : String) : String :=
  let filename : List Char :=
    match captureOf url.data with
    | some cap =>
      if cap.isEmpty || cap == ['.', '.'] || cap == ['.'] then
        defaultFilename.data
      else cap
    | none => defaultFilename.data
  String.mk (sanitizeWith keep filename)

/-- Spec-side reading of the claim: the last `/`-delimited segment is the
maximal slash-free suffix of the part following the host. -/
def afterLastSlash (l : List Char) : List Char :=
  (l.reverse.takeWhile notSlash).reverse

/-- Modeled from the spec wording of the claim (for comparison with
`getFilenameWith`): if the URL matches `scheme://host` followed by
`/`-delimited segments and the last segment is non-empty and neither `.`
nor `..`, return that last segment sanitized; otherwise return
`index.html`. -/
def specGetFilenameWith (keep : Char → Bool) (url : String) : String :=
  match findRest url.data with
  | none => defaultFilename
  | some rest =>
    match rest with
    | [] => defaultFilename
    | _ :: _ =>
      let seg := afterLastSlash rest
      if seg.isEmpty || seg == ['.'] || seg == ['.', '.'] then defaultFilename
      else String.mk (sanitizeWith keep seg)

/-! ### Lemmas about the segment capture -/

theorem segLoop_nil (f : Nat) (cap : List Char) : segLoop f cap [] = cap := by
  cases f <;> rfl

theorem takeWhile_append_stop (p : Char → Bool) (a : List Char) (c : Char)
    (b : List Char) (hc : p c = false) :
    (a ++ c :: b).takeWhile p = a.takeWhile p := by
  induction a with
  | nil => simp [List.takeWhile, hc]
  | cons x a ih =>
    simp only [List.cons_append, List.takeWhile]
    cases hx : p x <;> simp [ih]

theorem drop_takeWhile_length (p : Char → Bool) (l : List Char) :
    l.drop (l.takeWhile p).length = l.dropWhile p := by
  induction l with
  | nil => rfl
  | cons c l ih =>
    simp only [List.takeWhile, List.dropWhile]
    cases hc : p c
    · rfl
    · simpa using ih

theorem dropWhile_head_false (p : Char → Bool) (l : List Char) (c : Char)
    (t : List Char) (h : l.dropWhile p = c :: t) : p c = false := by
  induction l with
  | nil => simp at h
  | cons x l ih =>
    simp only [List.dropWhile] at h
    cases hx : p x
    · rw [hx] at h
      cases h
      exact hx
    · rw [hx] at h
      exact ih h

theorem afterLastSlash_append (x y : List Char) :
    afterLastSlash (x ++ '/' :: y) = afterLastSlash ('/' :: y) := by
  have hns : notSlash '/' = false := rfl
  unfold afterLastSlash
  have h1 : (x ++ '/' :: y).reverse = y.reverse ++ '/' :: x.reverse := by
    simp
  have h2 : ('/' :: y).reverse = y.reverse ++ '/' :: ([] : List Char) := by
    simp
  rw [h1, h2, takeWhile_append_stop _ _ _ _ hns, takeWhile_append_stop _ _ _ _ hns]

theorem length_dropWhile_le (p : Char → Bool) (l : List Char) :
    (l.dropWhile p).length ≤ l.length := by
  conv_rhs => rw [← List.takeWhile_append_dropWhile p l]
  rw [List.length_append]
  omega

theorem notSlash_false_eq (c : Char) (hc : notSlash c = false) : c = '/' := by
  cases h : c == '/'
  · rw [notSlash, h] at hc
    simp at hc
  · exact eq_of_beq h

theorem segLoop_cons (f : Nat) (cap tail : List Char) :
    segLoop (f + 1) cap ('/' :: tail) =
      segLoop f (tail.takeWhile notSlash)
        (tail.drop (tail.takeWhile notSlash).length) := rfl

theorem segLoop_eq_afterLastSlash (f : Nat) (l : List Char) (cap : List Char)
    (hf : ('/' :: l).length ≤ f) :
    segLoop f cap ('/' :: l) = afterLastSlash ('/' :: l) := by
  induction f generalizing l cap with
  | zero => simp at hf
  | succ f ih =>
    rw [segLoop_cons, drop_takeWhile_length]
    cases hdw : l.dropWhile notSlash with
    | nil =>
      rw [segLoop_nil]
      have hall : ∀ c ∈ l, notSlash c = true := List.dropWhile_eq_nil_iff.mp hdw
      have htw : l.takeWhile notSlash = l := List.takeWhile_eq_self_iff.mpr hall
      rw [htw]
      unfold afterLastSlash
      have h2 : ('/' :: l).reverse = l.reverse ++ '/' :: ([] : List Char) := by simp
      rw [h2, takeWhile_append_stop _ _ _ _ rfl]
      have hallr : ∀ c ∈ l.reverse, notSlash c = true := by
        intro c hc
        exact hall c (List.mem_reverse.mp hc)
      rw [List.takeWhile_eq_self_iff.mpr hallr, List.reverse_reverse]
    | cons c t =>
      have hc : notSlash c = false := dropWhile_head_false _ _ _ _ hdw
      have hcs : c = '/' := notSlash_false_eq c hc
      subst hcs
      have hlen : ('/' :: t).length ≤ f := by
        have h1 : ('/' :: t).length ≤ l.length := by
          rw [← hdw]
          exact length_dropWhile_le notSlash l
        have h2 : ('/' :: l).length ≤ f + 1 := hf
        simp only [List.length_cons] at h1 h2 ⊢
        omega
      have hsplit : l = l.takeWhile notSlash ++ '/' :: t := by
        conv_lhs => rw [← List.takeWhile_append_dropWhile notSlash l]
        rw [hdw]
      have hsplit2 : ('/' :: l) = ('/' :: l.takeWhile notSlash) ++ '/' :: t := by
        rw [List.cons_append, ← hsplit]
      rw [ih t (l.takeWhile notSlash) hlen, hsplit2, afterLastSlash_append]

theorem trySchemeRest_shape (cs : List Char) (r : List Char)
    (h : trySchemeRest cs = some r) : r = [] ∨ ∃ t, r = '/' :: t := by
  unfold trySchemeRest at h
  by_cases hrun : ((cs.takeWhile isWordChar).isEmpty : Bool)
  · simp [hrun] at h
  · simp only [Bool.not_eq_true] at hrun
    rw [hrun] at h
    simp only [Bool.false_eq_true, if_false] at h
    cases hst : schemeTail (cs.drop (cs.takeWhile isWordChar).length) with
    | none => rw [hst] at h; simp at h
    | some rest2 =>
      rw [hst] at h
      dsimp only at h
      by_cases hh : ((rest2.takeWhile notSlash).isEmpty : Bool)
      · simp [hh] at h
      · simp only [Bool.not_eq_true] at hh
        rw [hh] at h
        simp only [Bool.false_eq_true, if_false, Option.some.injEq] at h
        cases hdw : rest2.dropWhile notSlash with
        | nil =>
          left
          rw [← h, hdw]
        | cons e es =>
          right
          have he : e = '/' := notSlash_false_eq e (dropWhile_head_false _ _ _ _ hdw)
          subst he
          exact ⟨es, by rw [← h, hdw]⟩

theorem findRest_shape (l : List Char) (rest : List Char)
    (h : findRest l = some rest) : rest = [] ∨ ∃ t, rest = '/' :: t := by
  induction l with
  | nil => simp [findRest] at h
  | cons c cs ih =>
    rw [findRest] at h
    cases htry : trySchemeRest (c :: cs) with
    | none =>
      rw [htry] at h
      exact ih h
    | some r =>
      rw [htry] at h
      cases h
      exact trySchemeRest_shape _ _ htry

theorem sanitize_self (keep : Char → Bool) (l : List Char)
    (h : ∀ c ∈ l, keep c = true) : sanitizeWith keep l = l := by
  unfold sanitizeWith
  induction l with
  | nil => rfl
  | cons c l ih =>
    simp only [List.map]
    rw [h c (by simp), ih fun d hd => h d (by simp [hd])]
    simp

theorem or_swap23 (a b c : Bool) : (a || b || c) = (a || c || b) := by
  cases a <;> cases b <;> cases c <;> rfl

/-- Refinement: the transcription of `getFilename` agrees with the spec-side
description for every URL, for any kept-character predicate that keeps the
characters of the default filename (as the class `[\pL\-.0-9]` does). -/
theorem getFilename_eq_spec (keep : Char → Bool)
    (hkeep : ∀ c ∈ defaultFilename.data, keep c = true) (url : String) :
    getFilenameWith keep url = specGetFilenameWith keep url := by
  have hdef : String.mk (sanitizeWith keep defaultFilename.data) = defaultFilename := by
    rw [sanitize_self keep _ hkeep]
  unfold getFilenameWith specGetFilenameWith captureOf
  cases hfr : findRest url.data with
  | none => exact hdef
  | some rest =>
    rcases findRest_shape _ _ hfr with hnil | ⟨t, ht⟩
    · subst hnil
      dsimp only
      rw [segLoop_nil]
      exact hdef
    · subst ht
      dsimp only
      rw [segLoop_eq_afterLastSlash _ _ _ (Nat.le_refl _)]
      rw [or_swap23]
      by_cases hc : ((afterLastSlash ('/' :: t)).isEmpty ||
          (afterLastSlash ('/' :: t)) == ['.'] ||
          (afterLastSlash ('/' :: t)) == ['.', '.']) = true
      · rw [if_pos hc, if_pos hc]
        exact hdef
      · rw [if_neg hc, if_neg hc]

/-! ### Decimal rendering

`getUniqueFilename` builds candidates with `fmt.Sprintf("%s.%d", filename,
postfix)`; the `%d` verb renders the counter in decimal.  `decimal` below
models it by repeated division by 10 (fuel-driven so that it reduces in the
kernel; the counter itself always bounds the number of digits). -/

/-- Big-endian decimal digits of `n` accumulated onto `acc`. -/
def decAux : Nat → Nat → List Char → List Char
  | 0, _, acc => acc
  | f + 1, n, acc =>
    if n = 0 then acc else decAux f (n / 10) (Nat.digitChar (n % 10) :: acc)

/-- Decimal rendering of a natural number, as Go's `%d` produces for a
non-negative `int`. -/
def decimal (n : Nat) : String :=
  if n = 0 then "0" else String.mk (decAux n n [])

/-- Inverse reading of a digit string, used only to prove `decimal`
injective. -/
def parseNum (l : List Char) : Nat :=
  l.foldl (fun a c => a * 10 + (c.toNat - 48)) 0

theorem decAux_zero (f : Nat) (acc : List Char) : decAux f 0 acc = acc := by
  cases f <;> simp [decAux]

theorem decAux_acc (f : Nat) : ∀ (n : Nat) (acc : List Char),
    decAux f n acc = decAux f n [] ++ acc := by
  induction f with
  | zero => intro n acc; simp [decAux]
  | succ f ih =>
    intro n acc
    by_cases hn : n = 0
    · simp [decAux, hn]
    · rw [decAux, if_neg hn, decAux, if_neg hn, ih (n / 10), ih (n / 10) [Nat.digitChar (n % 10)]]
      simp

theorem digitChar_val : ∀ m, m < 10 → (Nat.digitChar m).toNat - 48 = m := by decide

theorem parseNum_snoc (x : List Char) (d : Char) :
    parseNum (x ++ [d]) = parseNum x * 10 + (d.toNat - 48) := by
  unfold parseNum
  rw [List.foldl_append]
  rfl

theorem parseNum_decAux (f : Nat) : ∀ n, 0 < n → n ≤ f →
    parseNum (decAux f n []) = n := by
  induction f with
  | zero => intro n h1 h2; omega
  | succ f ih =>
    intro n h1 h2
    have hn : ¬ n = 0 := by omega
    rw [decAux, if_neg hn, decAux_acc]
    rw [parseNum_snoc, digitChar_val (n % 10) (Nat.mod_lt n (by omega))]
    by_cases hq : n / 10 = 0
    · rw [hq, decAux_zero]
      have : parseNum [] = 0 := rfl
      rw [this]
      omega
    · rw [ih (n / 10) (by omega) (by omega)]
      omega

theorem decimal_inj : Function.Injective decimal := by
  intro a b h
  unfold decimal at h
  by_cases ha : a = 0 <;> by_cases hb : b = 0
  · omega
  · rw [if_pos ha, if_neg hb] at h
    have hdata : ['0'] = decAux b b [] := congrArg String.data h
    have := parseNum_decAux b b (by omega) (Nat.le_refl b)
    rw [← hdata] at this
    have h0 : parseNum ['0'] = 0 := rfl
    omega
  · rw [if_neg ha, if_pos hb] at h
    have hdata : decAux a a [] = ['0'] := congrArg String.data h
    have := parseNum_decAux a a (by omega) (Nat.le_refl a)
    rw [hdata] at this
    have h0 : parseNum ['0'] = 0 := rfl
    omega
  · rw [if_neg ha, if_neg hb] at h
    have hdata : decAux a a [] = decAux b b [] := congrArg String.data h
    have hA := parseNum_decAux a a (by omega) (Nat.le_refl a)
    have hB := parseNum_decAux b b (by omega) (Nat.le_refl b)
    rw [hdata] at hA
    omega

/-! ### FilenameResolver: `getUniqueFilename`

Go probes the working directory with `os.Stat`; the set of existing names
is modeled as a list of strings and existence as membership.  The probe
loop (`for ...; !os.IsNotExist(err); postfix++`) is transcribed with fuel;
`fs.length + 1` fuel always suffices (proved below), so the fueled model
agrees with the unbounded Go loop on every input. -/

/-- The candidate `fmt.Sprintf("%s.%d", filename, n)`. -/
def candidateName (filename : String) (n : Nat) : String :=
  filename ++ "." ++ decimal n

/-- The Go probe loop: starting at counter `n`, return the first candidate
not present in `fs`. -/
def probeLoop (fs : List String) (filename : String) : Nat → Nat → Option String
  | _, 0 => none
  | n, fuel + 1 =>
    if fs.contains (candidateName filename n) then
      probeLoop fs filename (n + 1) fuel
    else
      some (candidateName filename n)

/-- `getUniqueFilename` with explicit fuel for the probe loop. -/
def getUniqueFilenameCore (fs : List String) (filename : String) (fuel : Nat) :
    Option String :=
  if fs.contains filename then probeLoop fs filename 1 fuel else some filename

/-- Model of `getUniqueFilename` (main.go).  The fuel `fs.length + 1` never
runs out (see `getUniqueFilenameCore_isSome`), so the `getD` default is
never taken and the function agrees with the Go loop. -/
def getUniqueFilename (fs : List String) (filename : String) : String :=
  (getUniqueFilenameCore fs filename (fs.length + 1)).getD filename

theorem candidateName_inj (filename : String) :
    Function.Injective (candidateName filename) := by
  intro i j h
  have hdata := congrArg String.data h
  rw [candidateName, candidateName, String.data_append, String.data_append] at hdata
  have : (decimal i).data = (decimal j).data := List.append_cancel_left hdata
  exact decimal_inj (String.ext this)

theorem all_contained_length (fs : List String) (filename : String) (k : Nat)
    (hall : ∀ m, 1 ≤ m → m ≤ k → fs.contains (candidateName filename m) = true) :
    k ≤ fs.length := by
  have hnodup : ((List.range' 1 k).map (candidateName filename)).Nodup :=
    (List.nodup_range' 1 k).map (candidateName_inj filename)
  have hsub : (List.range' 1 k).map (candidateName filename) ⊆ fs := by
    intro x hx
    rw [List.mem_map] at hx
    obtain ⟨m, hm, rfl⟩ := hx
    rw [List.mem_range'_1] at hm
    have := hall m hm.1 (by omega)
    simpa using this
  have := (hnodup.subperm hsub).length_le
  simpa using this

theorem exists_free (fs : List String) (filename : String) :
    ∃ N, 1 ≤ N ∧ N ≤ fs.length + 1 ∧
      fs.contains (candidateName filename N) = false := by
  by_contra hcon
  push_neg at hcon
  have hall : ∀ m, 1 ≤ m → m ≤ fs.length + 1 →
      fs.contains (candidateName filename m) = true := by
    intro m h1 h2
    have := hcon m h1 h2
    simpa using this
  have := all_contained_length fs filename (fs.length + 1) hall
  omega

theorem probeLoop_finds (fs : List String) (filename : String) :
    ∀ (fuel n N : Nat), n ≤ N → N < n + fuel →
    fs.contains (candidateName filename N) = false →
    (∀ m, n ≤ m → m < N → fs.contains (candidateName filename m) = true) →
    probeLoop fs filename n fuel = some (candidateName filename N) := by
  intro fuel
  induction fuel with
  | zero => intro n N h1 h2; omega
  | succ fuel ih =>
    intro n N h1 h2 hfree hall
    rw [probeLoop]
    cases hc : fs.contains (candidateName filename n) with
    | true =>
      rw [if_pos rfl]
      have hne : n ≠ N := by
        intro heq
        rw [heq, hfree] at hc
        cases hc
      exact ih (n + 1) N (by omega) (by omega) hfree
        fun m hm1 hm2 => hall m (by omega) hm2
    | false =>
      rw [if_neg (by simp)]
      have : n = N := by
        by_contra hne
        have := hall n (Nat.le_refl n) (by omega)
        rw [this] at hc
        cases hc
      rw [this]

theorem getUniqueFilenameCore_isSome (fs : List String) (filename : String) :
    ∃ r, getUniqueFilenameCore fs filename (fs.length + 1) = some r := by
  unfold getUniqueFilenameCore
  cases hc : fs.contains filename with
  | false =>
    rw [if_neg (by simp)]
    exact ⟨filename, rfl⟩
  | true =>
    rw [if_pos rfl]
    have hex : ∃ N, 1 ≤ N ∧ fs.contains (candidateName filename N) = false := by
      obtain ⟨N, h1, _, h3⟩ := exists_free fs filename
      exact ⟨N, h1, h3⟩
    have hP : ∃ N, (fun N => 1 ≤ N ∧ fs.contains (candidateName filename N) = false) N := hex
    obtain ⟨W, hW1, hW2, hW3⟩ := exists_free fs filename
    have hfind := Nat.find_spec hP
    have hbound : Nat.find hP ≤ W := Nat.find_min' hP ⟨hW1, hW3⟩
    refine ⟨candidateName filename (Nat.find hP), ?_⟩
    apply probeLoop_finds fs filename (fs.length + 1) 1 (Nat.find hP) hfind.1
      (by omega) hfind.2
    intro m hm1 hm2
    have := Nat.find_min hP hm2
    simp only [not_and] at this
    have hne := this hm1
    cases hcm : fs.contains (candidateName filename m) with
    | true => rfl
    | false => exact absurd hcm hne

/-! ### StatusTable: `initializeStatusTable`

The Go method computes, per URL, a display filename, a percentage-cell
width (`"3"`, or `strconv.Itoa(len([]rune(filename)) - 1)` when the rune
length exceeds 4), concatenates `"%" + width + "d%% "` into the row format,
and prints the header with `strings.Repeat("%4s ", n) + "\n"` applied to
the filenames (right-justified to a minimum of 4 runes). -/

/-- The percentage-column width computed for one filename.  `String.length`
counts characters (Unicode code points), matching Go's `len([]rune ...)`. -/
def columnWidth (filename : String) : Nat :=
  if 4 < filename.length then filename.length - 1 else 3

/-- One `"%" + width + "d%% "` fragment of the row format. -/
def cellFormat (filename : String) : String :=
  "%" ++ decimal (columnWidth filename) ++ "d%% "

/-- The assembled `statusTableRowFormat`. -/
def rowFormatOf (filenames : List String) : String :=
  String.join (filenames.map cellFormat) ++ "\n"

/-- `%4s` rendering of one filename: right-justified, space-padded to a
minimum width of 4 runes. -/
def pad4 (s : String) : String :=
  if s.length < 4 then String.mk (List.replicate (4 - s.length) ' ') ++ s else s

/-- The header line printed once by `initializeStatusTable`. -/
def headerLineOf (filenames : List String) : String :=
  String.join (filenames.map fun f => pad4 f ++ " ") ++ "\n"

/-- Model of `initializeStatusTable`: resolves the display filenames (the
same `getUniqueFilename ∘ getFilename` composition the download path uses)
and returns the pair (row format string, printed header line). -/
def statusTableInit (fs : List String) (urls : List String) : String × String :=
  (rowFormatOf (urls.map fun u => getUniqueFilename fs (getFilenameWith keepAscii u)),
   headerLineOf (urls.map fun u => getUniqueFilename fs (getFilenameWith keepAscii u)))

/-! ### DownloadTask: the Transfer loop of `downloadUrl`

The loop state carries the Go locals (`chunkLen`, `totalCopied`,
`lastCopied`) plus the remaining stream content, the loop condition
(`err == nil`), and two logs: the registry publications made inside the
loop and the per-iteration byte counts returned by `io.CopyN`.

The stream is modeled by the number of bytes it will still deliver before
signaling a terminal read outcome (graceful EOF and mid-transfer transport
failures behave identically for the loop condition).  `io.CopyN(dst, src,
k)` copies `min k avail` bytes and returns a nil error exactly when it
copied all `k` requested bytes — in particular `k = 0` copies nothing and
returns nil without touching the stream.

Each speed measurement (`time.Now().Sub(measurementStart) > 1*time.Second`
together with the float computation `int(lastCopied / elapsedSeconds)`) is
time-dependent; it is modeled by a pacing oracle giving, per iteration,
`none` (measurement interval not yet elapsed) or `some v` with `v` the
measured `lastCopiedPerSecond`, after which the code sets
`chunkLen = v / chunksPerSecond` and resets the accumulator. -/

structure TState where
  chunkLen : Nat
  totalCopied : Nat
  lastCopied : Nat
  avail : Nat
  errSeen : Bool
  writes : List Nat
  copied : List Nat

/-- One iteration of the Transfer loop body. -/
def copyStep (contentLen : Nat) (pace : Option Nat) (s : TState) : TState :=
  { chunkLen :=
      match pace with
      | none => s.chunkLen
      | some v => v / chunksPerSecond
    totalCopied := s.totalCopied + min s.chunkLen s.avail
    lastCopied :=
      match pace with
      | none => s.lastCopied + min s.chunkLen s.avail
      | some _ => 0
    avail := s.avail - min s.chunkLen s.avail
    errSeen := decide (s.avail < s.chunkLen)
    writes :=
      if 0 < contentLen then
        s.writes ++ [(s.totalCopied + min s.chunkLen s.avail) * 100 / contentLen]
      else s.writes
    copied := s.copied ++ [min s.chunkLen s.avail] }

/-- The Transfer loop: iterate the body while `err == nil`, driven by fuel
(the Go loop has no fuel; theorems about loop exit take the exit as a
hypothesis, and the non-termination theorem shows no fuel reaches it). -/
def transferRun (contentLen : Nat) (pacing : Nat → Option Nat) :
    Nat → TState → TState
  | 0, s => s
  | fuel + 1, s =>
    if s.errSeen then s
    else transferRun contentLen (fun i => pacing (i + 1)) fuel
      (copyStep contentLen (pacing 0) s)

/-- The loop state on entry: `chunkLen := initialChunkSize`,
`totalCopied := 0`, `lastCopied` zero, full stream ahead, `err = nil`. -/
def initTState (avail : Nat) : TState :=
  { chunkLen := initialChunkSize
    totalCopied := 0
    lastCopied := 0
    avail := avail
    errSeen := false
    writes := []
    copied := [] }

/-! ### DownloadTask: `downloadUrl` end to end -/

/-- Filesystem effects performed by `downloadUrl` (`ioutil.TempFile`,
`os.Rename`; the function never removes a file). -/
inductive FsOp where
  | createTemp (hint name : String)
  | renameFile (src dst : String)
  | removeFile (path : String)
deriving DecidableEq

/-- Messages written to the error sink (`printer.ErrPrintf`), abstracted to
which of the three `ErrPrintf` call sites fired. -/
inductive ErrEvent where
  | tempFileError
  | downloadError (url : String)
  | renameError (src dst : String)
deriving DecidableEq

/-- Whether a removal appears among the filesystem effects. -/
def hasRemove (ops : List FsOp) : Bool :=
  ops.any fun op =>
    match op with
    | FsOp.removeFile _ => true
    | _ => false

structure DownloadResult where
  finished : Bool
  writes : List Nat
  errs : List ErrEvent
  fsOps : List FsOp
  totalCopied : Nat

/-- Model of `downloadUrl` (main.go).  Environment inputs that Go obtains
from the outside world are parameters: `fs` (names existing in the working
directory), `tmpName` (the randomized name `ioutil.TempFile` picks),
`tmpOk` (whether temp-file creation succeeds), `get` (`none` for a
transport error, otherwise the declared content length paired with the
number of bytes the stream will deliver before its terminal read outcome),
`renameOk` (whether `os.Rename` succeeds), and the pacing oracle with the
loop fuel.  The result records the completion-channel value, all registry
publications in order, the error-sink events, the filesystem effects, and
the final `totalCopied`. -/
def downloadUrl (fs : List String) (url : String) (tmpName : String)
    (tmpOk : Bool) (get : Option (Nat × Nat)) (renameOk : Bool)
    (pacing : Nat → Option Nat) (fuel : Nat) : DownloadResult :=
  -- d.addDownloadPercentage(url, 0)
  let filename := getUniqueFilename fs (getFilenameWith keepAscii url)
  if tmpOk = false then
    { finished := false, writes := [0], errs := [ErrEvent.tempFileError],
      fsOps := [], totalCopied := 0 }
  else
    match get with
    | none =>
      { finished := false, writes := [0], errs := [ErrEvent.downloadError url],
        fsOps := [FsOp.createTemp filename tmpName], totalCopied := 0 }
    | some (contentLen, avail) =>
      -- if contentLen == 0 { d.addDownloadPercentage(url, 100) }
      let final := transferRun contentLen pacing fuel (initTState avail)
      let ws := [0] ++ (if contentLen = 0 then [100] else []) ++ final.writes
      if renameOk = false then
        { finished := false, writes := ws,
          errs := [ErrEvent.renameError tmpName filename],
          fsOps := [FsOp.createTemp filename tmpName],
          totalCopied := final.totalCopied }
      else
        { finished := decide (final.totalCopied = contentLen), writes := ws,
          errs := [],
          fsOps := [FsOp.createTemp filename tmpName,
                    FsOp.renameFile tmpName filename],
          totalCopied := final.totalCopied }

/-! ### Transfer-loop lemmas -/

/-- Byte conservation: the loop moves bytes from the stream to
`totalCopied`, and the iteration that sets `err` drains the stream. -/
theorem transfer_drained (c : Nat) : ∀ (fuel : Nat) (pacing : Nat → Option Nat)
    (s : TState), (s.errSeen = true → s.avail = 0) →
    ((transferRun c pacing fuel s).errSeen = true →
      (transferRun c pacing fuel s).avail = 0) ∧
    (transferRun c pacing fuel s).totalCopied + (transferRun c pacing fuel s).avail
      = s.totalCopied + s.avail := by
  intro fuel
  induction fuel with
  | zero => intro pacing s h; exact ⟨h, rfl⟩
  | succ fuel ih =>
    intro pacing s h
    rw [transferRun]
    by_cases he : s.errSeen = true
    · rw [if_pos he]
      exact ⟨h, rfl⟩
    · rw [if_neg he]
      have hstep : (copyStep c (pacing 0) s).errSeen = true →
          (copyStep c (pacing 0) s).avail = 0 := by
        simp only [copyStep, decide_eq_true_eq]
        intro hlt
        omega
      obtain ⟨h1, h2⟩ := ih (fun i => pacing (i + 1)) (copyStep c (pacing 0) s) hstep
      refine ⟨h1, ?_⟩
      rw [h2]
      simp only [copyStep]
      omega

/-- At loop exit from a fresh state, `totalCopied` equals everything the
stream delivered. -/
theorem transfer_total_at_exit (c avail : Nat) (pacing : Nat → Option Nat)
    (fuel : Nat)
    (hdone : (transferRun c pacing fuel (initTState avail)).errSeen = true) :
    (transferRun c pacing fuel (initTState avail)).totalCopied = avail := by
  obtain ⟨h1, h2⟩ := transfer_drained c fuel pacing (initTState avail)
    (by simp [initTState])
  have h0 := h1 hdone
  have e1 : (initTState avail).totalCopied = 0 := rfl
  have e2 : (initTState avail).avail = avail := rfl
  rw [e1, e2] at h2
  omega

/-- Once `chunkLen` is zero and every measurement keeps reporting zero
throughput, the loop makes no progress: the error flag is never set and the
stream is never read, for any amount of fuel. -/
theorem transfer_stuck (c : Nat) : ∀ (fuel : Nat) (pacing : Nat → Option Nat)
    (s : TState), (∀ i, pacing i = some 0) → s.errSeen = false →
    s.chunkLen = 0 →
    (transferRun c pacing fuel s).errSeen = false ∧
    (transferRun c pacing fuel s).avail = s.avail := by
  intro fuel
  induction fuel with
  | zero => intro pacing s hp he hc; exact ⟨he, rfl⟩
  | succ fuel ih =>
    intro pacing s hp he hc
    rw [transferRun, if_neg (by rw [he]; simp)]
    have hp0 : pacing 0 = some 0 := hp 0
    have h1 : (copyStep c (pacing 0) s).errSeen = false := by
      simp only [copyStep, hc]
      simp
    have h2 : (copyStep c (pacing 0) s).chunkLen = 0 := by
      simp only [copyStep, hp0]
      simp [chunksPerSecond]
    have h3 : (copyStep c (pacing 0) s).avail = s.avail := by
      simp only [copyStep, hc]
      simp
    obtain ⟨ha, hb⟩ := ih (fun i => pacing (i + 1)) (copyStep c (pacing 0) s)
      (fun i => hp (i + 1)) h1 h2
    exact ⟨ha, by rw [hb, h3]⟩

/-- With a positive declared length bounding the stream content, every
registry value published by the loop stays at most 100. -/
theorem transfer_writes_le (c : Nat) (hc : 0 < c) : ∀ (fuel : Nat)
    (pacing : Nat → Option Nat) (s : TState),
    s.totalCopied + s.avail ≤ c → (∀ w ∈ s.writes, w ≤ 100) →
    ∀ w ∈ (transferRun c pacing fuel s).writes, w ≤ 100 := by
  intro fuel
  induction fuel with
  | zero => intro pacing s hsum hw; exact hw
  | succ fuel ih =>
    intro pacing s hsum hw
    rw [transferRun]
    by_cases he : s.errSeen = true
    · rw [if_pos he]; exact hw
    · rw [if_neg he]
      apply ih (fun i => pacing (i + 1)) (copyStep c (pacing 0) s)
      · simp only [copyStep]
        omega
      · simp only [copyStep, if_pos hc]
        intro w hwmem
        rcases List.mem_append.mp hwmem with hin | hnew
        · exact hw w hin
        · have hweq : w = (s.totalCopied + min s.chunkLen s.avail) * 100 / c := by
            simpa using hnew
          have hx : s.totalCopied + min s.chunkLen s.avail ≤ c := by omega
          have hmul : (s.totalCopied + min s.chunkLen s.avail) * 100 ≤ c * 100 :=
            Nat.mul_le_mul_right 100 hx
          have hdiv := Nat.div_le_div_right (c := c) hmul
          rw [Nat.mul_div_cancel_left 100 hc] at hdiv
          omega

/-- With declared length zero, the loop publishes nothing. -/
theorem transfer_writes_zero : ∀ (fuel : Nat) (pacing : Nat → Option Nat)
    (s : TState), (transferRun 0 pacing fuel s).writes = s.writes := by
  intro fuel
  induction fuel with
  | zero => intro pacing s; rfl
  | succ fuel ih =>
    intro pacing s
    rw [transferRun]
    by_cases he : s.errSeen = true
    · rw [if_pos he]
    · rw [if_neg he, ih]
      simp [copyStep]

/-- The publication log and the per-iteration copy log stay aligned: the
`k`-th published value is exactly `(bytes copied through iteration k) * 100
/ contentLen`. -/
theorem transfer_log (c : Nat) (hc : 0 < c) : ∀ (fuel : Nat)
    (pacing : Nat → Option Nat) (s : TState) (t0 : Nat),
    s.writes.length = s.copied.length →
    s.totalCopied = t0 + s.copied.sum →
    (∀ k, k < s.writes.length →
      s.writes.getD k 0 = (t0 + (s.copied.take (k + 1)).sum) * 100 / c) →
    (transferRun c pacing fuel s).writes.length
      = (transferRun c pacing fuel s).copied.length ∧
    (transferRun c pacing fuel s).totalCopied
      = t0 + (transferRun c pacing fuel s).copied.sum ∧
    ∀ k, k < (transferRun c pacing fuel s).writes.length →
      (transferRun c pacing fuel s).writes.getD k 0
        = (t0 + ((transferRun c pacing fuel s).copied.take (k + 1)).sum) * 100 / c := by
  intro fuel
  induction fuel with
  | zero => intro pacing s t0 hlen htc hk; exact ⟨hlen, htc, hk⟩
  | succ fuel ih =>
    intro pacing s t0 hlen htc hk
    rw [transferRun]
    by_cases he : s.errSeen = true
    · rw [if_pos he]; exact ⟨hlen, htc, hk⟩
    · rw [if_neg he]
      apply ih (fun i => pacing (i + 1)) (copyStep c (pacing 0) s) t0
      · simp [copyStep, if_pos hc, hlen]
      · simp only [copyStep]
        rw [List.sum_append]
        simp only [List.sum_cons, List.sum_nil, Nat.add_zero]
        omega
      · simp only [copyStep, if_pos hc]
        intro k hklt
        rw [List.length_append, List.length_singleton] at hklt
        by_cases hcase : k < s.writes.length
        · rw [List.getD_append _ _ _ _ hcase]
          rw [List.take_append_of_le_length (by omega), hk k hcase]
        · have hkeq : k = s.writes.length := by omega
          subst hkeq
          rw [List.getD_append_right _ _ _ _ (Nat.le_refl _)]
          simp only [Nat.sub_self]
          have htake : (s.copied ++ [min s.chunkLen s.avail]).take
              (s.writes.length + 1) = s.copied ++ [min s.chunkLen s.avail] := by
            apply List.take_of_length_le
            rw [List.length_append, List.length_singleton, hlen]
          rw [htake, List.sum_append]
          have hgd : ([(s.totalCopied + min s.chunkLen s.avail) * 100 / c].getD 0 0)
              = (s.totalCopied + min s.chunkLen s.avail) * 100 / c := rfl
          rw [hgd, htc]
          simp only [List.sum_cons, List.sum_nil, Nat.add_zero]
          ring_nf

/-- Unfolding of `downloadUrl` on the success path (temp file created,
transport opened, rename succeeded). -/
theorem downloadUrl_ok (fs : List String) (url tmpName : String)
    (contentLen avail : Nat) (pacing : Nat → Option Nat) (fuel : Nat) :
    downloadUrl fs url tmpName true (some (contentLen, avail)) true pacing fuel =
      { finished := decide ((transferRun contentLen pacing fuel (initTState avail)).totalCopied
          = contentLen),
        writes := [0] ++ (if contentLen = 0 then [100] else [])
          ++ (transferRun contentLen pacing fuel (initTState avail)).writes,
        errs := [],
        fsOps := [FsOp.createTemp (getUniqueFilename fs (getFilenameWith keepAscii url)) tmpName,
                  FsOp.renameFile tmpName (getUniqueFilename fs (getFilenameWith keepAscii url))],
        totalCopied := (transferRun contentLen pacing fuel (initTState avail)).totalCopied } := rfl

/-! ### Claims -/

/-- Claim C1, counterexample.  The claim says that for declared content
length 0 the completion signal carries success unconditionally once the
stream is drained, regardless of how many bytes were copied.  Concretely:
content length 0, a stream that delivers 5 bytes and then ends.  The
stream is drained (the loop exits), yet the completion signal is `false`,
because the code sends `totalCopied == contentLen`, i.e. `5 == 0`. -/
theorem C1_counterexample :
    (downloadUrl [] "http://example.com/data.bin" "data.bin123" true (some (0, 5)) true
      (fun _ => none) 2).finished = false ∧
    (transferRun 0 (fun _ => none) 2 (initTState 5)).errSeen = true := by
  decide

/-- Claim C1, amended.  For a job with declared content length 0 that
reaches stream end and renames successfully, the completion signal carries
success if and only if zero bytes were copied (the stream was empty); the
progress entry is still set to 100 immediately.  Success is not
unconditional. -/
theorem C1_amended_zero_length (fs : List String) (url tmpName : String)
    (avail : Nat) (pacing : Nat → Option Nat) (fuel : Nat)
    (hdone : (transferRun 0 pacing fuel (initTState avail)).errSeen = true) :
    ((downloadUrl fs url tmpName true (some (0, avail)) true pacing fuel).finished = true
      ↔ avail = 0) ∧
    (downloadUrl fs url tmpName true (some (0, avail)) true pacing fuel).totalCopied
      = avail ∧
    100 ∈ (downloadUrl fs url tmpName true (some (0, avail)) true pacing fuel).writes := by
  have htc := transfer_total_at_exit 0 avail pacing fuel hdone
  rw [downloadUrl_ok]
  refine ⟨?_, htc, ?_⟩
  · show decide ((transferRun 0 pacing fuel (initTState avail)).totalCopied = 0) = true
      ↔ avail = 0
    rw [htc]
    simp
  · show 100 ∈ [0] ++ (if (0 : Nat) = 0 then [100] else [])
      ++ (transferRun 0 pacing fuel (initTState avail)).writes
    simp

/-- Claim C1 witness for the amended statement, at content length 0 and a
5-byte stream: the loop exits, `totalCopied = 5`, and the signal is not
success. -/
theorem C1_amended_zero_length_witness :
    ((downloadUrl [] "http://example.com/data.bin" "x1" true (some (0, 5)) true
      (fun _ => none) 2).finished = true ↔ (5 : Nat) = 0) ∧
    (downloadUrl [] "http://example.com/data.bin" "x1" true (some (0, 5)) true
      (fun _ => none) 2).totalCopied = 5 ∧
    100 ∈ (downloadUrl [] "http://example.com/data.bin" "x1" true (some (0, 5)) true
      (fun _ => none) 2).writes :=
  C1_amended_zero_length [] "http://example.com/data.bin" "x1" 5
    (fun _ => none) 2 (by decide)

/-- Claim C2 (code bug).  The claim asserts the Transfer loop terminates
whenever the stream eventually signals end-of-data, for every sequence of
speed measurements, including ones that make the recomputed chunk length
arbitrarily small.  But when a measurement reports fewer than
`chunksPerSecond` bytes per second, the code sets
`chunkLen = lastCopiedPerSecond / chunksPerSecond = 0`, and from then on
`io.CopyN(dst, body, 0)` copies nothing and returns a nil error without
reading the stream, so the loop spins forever.  Concretely: a 20000-byte
stream, first iteration copies 10240 bytes, the measurement reports 0
bytes/second (any elapsed time longer than the bytes moved); for every
fuel bound the loop has neither observed end-of-data nor drained the
stream. -/
theorem C2_zero_chunk_nontermination (fuel : Nat) :
    (transferRun 30000 (fun _ => some 0) fuel (initTState 20000)).errSeen = false ∧
    0 < (transferRun 30000 (fun _ => some 0) fuel (initTState 20000)).avail := by
  cases fuel with
  | zero => exact ⟨rfl, by decide⟩
  | succ f =>
    rw [transferRun, if_neg (by decide)]
    have h1 : (copyStep 30000 ((fun _ : Nat => some 0) 0) (initTState 20000)).errSeen
        = false := by decide
    have h2 : (copyStep 30000 ((fun _ : Nat => some 0) 0) (initTState 20000)).chunkLen
        = 0 := by decide
    have h3 : (copyStep 30000 ((fun _ : Nat => some 0) 0) (initTState 20000)).avail
        = 9760 := by decide
    obtain ⟨ha, hb⟩ := transfer_stuck 30000 f (fun i => (fun _ : Nat => some 0) (i + 1))
      (copyStep 30000 ((fun _ : Nat => some 0) 0) (initTState 20000))
      (fun _ => rfl) h1 h2
    refine ⟨ha, ?_⟩
    rw [hb, h3]
    decide

/-- Claim C3, counterexample.  With zero URL arguments the process exits
with code 1, but the usage message goes through `fmt.Printf`, i.e. to
standard output: the stderr slot of the outcome is empty while the stdout
slot holds the non-empty usage message — the claim says it goes to
standard error and not standard output. -/
theorem C3_counterexample :
    mainRun ["gowget"] = MainOutcome.usageError
      "gowget: missing url\nUsage: gowget [URL]...\n" "" 1 ∧
    "gowget: missing url\nUsage: gowget [URL]...\n" ≠ "" := by
  decide

/-- Claim C3, amended.  When invoked with zero URL arguments the process
exits with the non-zero code 1 and writes the usage message to standard
output (standard error stays empty). -/
theorem C3_amended_usage (argv : List String) (h : argv.drop 1 = []) :
    mainRun argv = MainOutcome.usageError (usageMessage (argv.headD "")) "" 1 := by
  unfold mainRun
  rw [h]
  rfl

/-- Claim C3 witness for the amended statement. -/
theorem C3_amended_usage_witness :
    mainRun ["gowget"] = MainOutcome.usageError (usageMessage "gowget") "" 1 :=
  C3_amended_usage ["gowget"] rfl

/-- Claim C4, counterexample.  The claim says every value stored in the
progress registry lies in 0–100, in particular also when the stream
delivers more bytes than the declared content length.  Concretely: content
length 100, a stream delivering 200 bytes; the task publishes
`200 * 100 / 100 = 200`. -/
theorem C4_counterexample :
    ¬ (∀ w ∈ (downloadUrl [] "http://example.com/a" "a123" true (some (100, 200)) true
      (fun _ => none) 2).writes, w ≤ 100) := by
  decide

/-- Claim C4, amended.  Every percentage a download task writes is 0, 100,
or `totalCopied * 100 / contentLen`; all of them lie within 0–100 provided
the stream delivers at most the declared content length (values are
naturals, so 0 is always a lower bound).  When the stream delivers more
than declared, the published value exceeds 100 (see the counterexample). -/
theorem C4_amended_range (fs : List String) (url tmpName : String) (tmpOk : Bool)
    (get : Option (Nat × Nat)) (renameOk : Bool) (pacing : Nat → Option Nat)
    (fuel : Nat)
    (hget : ∀ cl av, get = some (cl, av) → cl = 0 ∨ av ≤ cl) :
    ∀ w ∈ (downloadUrl fs url tmpName tmpOk get renameOk pacing fuel).writes,
      w ≤ 100 := by
  intro w hw
  unfold downloadUrl at hw
  dsimp only at hw
  by_cases ht : tmpOk = false
  · rw [if_pos ht] at hw
    simp at hw
    omega
  · rw [if_neg ht] at hw
    cases get with
    | none =>
      simp at hw
      omega
    | some p =>
      obtain ⟨cl, av⟩ := p
      dsimp only at hw
      have hbound : ∀ u ∈ [0] ++ (if cl = 0 then [100] else [])
          ++ (transferRun cl pacing fuel (initTState av)).writes, u ≤ 100 := by
        intro u hu
        rcases List.mem_append.mp hu with hu1 | hu2
        · rcases List.mem_append.mp hu1 with hz | hh
          · simp at hz
            omega
          · by_cases hcl : cl = 0
            · rw [if_pos hcl] at hh
              simp at hh
              omega
            · rw [if_neg hcl] at hh
              simp at hh
        · by_cases hcl : cl = 0
          · rw [hcl, transfer_writes_zero] at hu2
            simp [initTState] at hu2
          · have hav : av ≤ cl := by
              rcases hget cl av rfl with h0 | h1
              · exact absurd h0 hcl
              · exact h1
            exact transfer_writes_le cl (by omega) fuel pacing (initTState av)
              (by simp [initTState]; omega) (by simp [initTState]) u hu2
      by_cases hr : renameOk = false
      · rw [if_pos hr] at hw
        exact hbound w hw
      · rw [if_neg hr] at hw
        exact hbound w hw

/-- Claim C4 witness for the amended statement: a 50-byte stream against a
declared length of 100 publishes the value 50, which is within 0–100. -/
theorem C4_amended_range_witness :
    50 ∈ (downloadUrl [] "http://example.com/a" "a456" true (some (100, 50)) true
      (fun _ => none) 2).writes ∧
    (50 : Nat) ≤ 100 :=
  ⟨by decide,
    C4_amended_range [] "http://example.com/a" "a456" true (some (100, 50)) true
      (fun _ => none) 2
      (by
        intro cl av h
        simp only [Option.some.injEq, Prod.mk.injEq] at h
        omega)
      50 (by decide)⟩

/-- Claim C5 (confirmed).  For declared content length > 0, when the loop
exits at stream end and the rename succeeds, the completion signal is
exactly `totalCopied == contentLen` — equivalently, success iff the stream
delivered exactly `contentLen` bytes — and the error sink receives no
message on this path (the mismatch is reported only through the boolean
signal). -/
theorem C5_success_iff (fs : List String) (url tmpName : String)
    (contentLen avail : Nat) (pacing : Nat → Option Nat) (fuel : Nat)
    (hc : 0 < contentLen)
    (hdone : (transferRun contentLen pacing fuel (initTState avail)).errSeen = true) :
    (downloadUrl fs url tmpName true (some (contentLen, avail)) true pacing fuel).finished
      = decide ((transferRun contentLen pacing fuel (initTState avail)).totalCopied
        = contentLen) ∧
    ((downloadUrl fs url tmpName true (some (contentLen, avail)) true pacing fuel).finished
      = true ↔ avail = contentLen) ∧
    (downloadUrl fs url tmpName true (some (contentLen, avail)) true pacing fuel).errs
      = [] := by
  have htc := transfer_total_at_exit contentLen avail pacing fuel hdone
  rw [downloadUrl_ok]
  refine ⟨rfl, ?_, rfl⟩
  show decide ((transferRun contentLen pacing fuel (initTState avail)).totalCopied
    = contentLen) = true ↔ avail = contentLen
  rw [htc]
  simp

/-- Claim C5 witness: declared length 10, stream of 5 bytes, loop exits on
the first iteration; the signal is not success and no error is printed. -/
theorem C5_success_iff_witness :
    ((downloadUrl [] "http://example.com/b" "b1" true (some (10, 5)) true
      (fun _ => none) 1).finished
      = decide ((transferRun 10 (fun _ => none) 1 (initTState 5)).totalCopied = 10)) ∧
    ((downloadUrl [] "http://example.com/b" "b1" true (some (10, 5)) true
      (fun _ => none) 1).finished = true ↔ (5 : Nat) = 10) ∧
    (downloadUrl [] "http://example.com/b" "b1" true (some (10, 5)) true
      (fun _ => none) 1).errs = [] :=
  C5_success_iff [] "http://example.com/b" "b1" 10 5 (fun _ => none) 1
    (by decide) (by decide)

/-- Claim C6 (confirmed).  `getFilenameWith` (the transcription of the Go
regexp logic) agrees with the spec-side description for every URL string:
last `/`-delimited segment after `scheme://host` when non-empty and neither
`.` nor `..`, sanitized; `index.html` otherwise; and the two quoted
examples evaluate as claimed (no `..`-resolution happens).  The
kept-character predicate is abstract (Go's `\pL` is an external Unicode
table shared by both sides); it is only required to keep the characters of
`index.html`, as the real class does. -/
theorem C6_getFilename (keep : Char → Bool)
    (hkeep : ∀ c ∈ defaultFilename.data, keep c = true) :
    (∀ url, getFilenameWith keep url = specGetFilenameWith keep url) ∧
    getFilenameWith keepAscii "http://example.com/././fff/../../../test.htm"
      = "test.htm" ∧
    getFilenameWith keepAscii "http://example.com/././fff/../../.." = "index.html" :=
  ⟨getFilename_eq_spec keep hkeep, by decide, by decide⟩

/-- Claim C6 witness at the ASCII kept-character class. -/
theorem C6_getFilename_witness :
    getFilenameWith keepAscii "http://example.com/././fff/../../../test.htm"
      = "test.htm" ∧
    getFilenameWith keepAscii "http://example.com/././fff/../../.." = "index.html" ∧
    getFilenameWith keepAscii "http://example.com/a/b"
      = specGetFilenameWith keepAscii "http://example.com/a/b" := by
  have h := C6_getFilename keepAscii (by decide)
  exact ⟨h.2.1, h.2.2, h.1 "http://example.com/a/b"⟩

/-- Claim C7 (confirmed).  `getUniqueFilename`: the fueled probe loop never
exhausts its fuel (first conjunct); an absent filename is returned
unchanged (second); otherwise the result is `filename.N` for the smallest
positive `N` whose candidate is absent (third). -/
theorem C7_getUniqueFilename (fs : List String) (filename : String) :
    (∃ r, getUniqueFilenameCore fs filename (fs.length + 1) = some r ∧
      getUniqueFilename fs filename = r) ∧
    (fs.contains filename = false → getUniqueFilename fs filename = filename) ∧
    (∀ N, fs.contains filename = true → 1 ≤ N →
      fs.contains (candidateName filename N) = false →
      (∀ m, 1 ≤ m → m < N → fs.contains (candidateName filename m) = true) →
      getUniqueFilename fs filename = candidateName filename N) := by
  refine ⟨?_, ?_, ?_⟩
  · obtain ⟨r, hr⟩ := getUniqueFilenameCore_isSome fs filename
    refine ⟨r, hr, ?_⟩
    unfold getUniqueFilename
    rw [hr]
    rfl
  · intro h
    unfold getUniqueFilename getUniqueFilenameCore
    rw [if_neg (by rw [h]; simp)]
    rfl
  · intro N hcontains h1 hfree hall
    unfold getUniqueFilename getUniqueFilenameCore
    rw [if_pos hcontains]
    have hbound : N ≤ fs.length + 1 := by
      have := all_contained_length fs filename (N - 1)
        (fun m hm1 hm2 => hall m hm1 (by omega))
      omega
    rw [probeLoop_finds fs filename (fs.length + 1) 1 N h1 (by omega) hfree
      (fun m hm1 hm2 => hall m hm1 hm2)]
    rfl

/-- Claim C7 witness: with existing paths `existing`, `existing_`,
`existing_.1`, the results are `existing.1` and `existing_.2`; an absent
name comes back unchanged. -/
theorem C7_getUniqueFilename_witness :
    getUniqueFilename ["existing", "existing_", "existing_.1"] "existing"
      = "existing.1" ∧
    getUniqueFilename ["existing", "existing_", "existing_.1"] "existing_"
      = "existing_.2" ∧
    getUniqueFilename ["existing"] "index.html" = "index.html" := by
  refine ⟨?_, ?_, ?_⟩
  · have h := (C7_getUniqueFilename ["existing", "existing_", "existing_.1"]
      "existing").2.2 1 (by decide) (by decide) (by decide)
      (fun m hm1 hm2 => by omega)
    rw [h]
    decide
  · have h := (C7_getUniqueFilename ["existing", "existing_", "existing_.1"]
      "existing_").2.2 2 (by decide) (by decide) (by decide)
      (fun m hm1 hm2 => by
        have hm : m = 1 := by omega
        subst hm
        decide)
    rw [h]
    decide
  · exact (C7_getUniqueFilename ["existing"] "index.html").2.1 (by decide)

/-- Claim C8 (confirmed).  The percentage-column width equals
`max 3 (length - 1)` (lengths in code points), and on the three test URLs
in an empty directory, `initializeStatusTable` produces exactly the quoted
row format and header line. -/
theorem C8_statusTable :
    (∀ filename : String, columnWidth filename = max 3 (filename.length - 1)) ∧
    statusTableInit []
      ["http://example.com/0", "http://example.com/output.dat",
        "http://example.com/000"]
      = ("%3d%% %9d%% %3d%% \n", "   0 output.dat  000 \n") := by
  constructor
  · intro filename
    unfold columnWidth
    by_cases h : 4 < filename.length
    · rw [if_pos h]
      omega
    · rw [if_neg h]
      omega
  · decide

/-- Claim C9 (confirmed).  During Transfer with declared length > 0, the
publication log and the per-iteration copy log have equal length, and the
`k`-th published percentage equals
`(bytes copied through iteration k) * 100 / contentLen` in exact (Nat)
arithmetic, i.e. `floor(totalCopied * 100 / contentLen)`. -/
theorem C9_percent_published (contentLen avail : Nat) (pacing : Nat → Option Nat)
    (fuel : Nat) (hc : 0 < contentLen) :
    (transferRun contentLen pacing fuel (initTState avail)).writes.length
      = (transferRun contentLen pacing fuel (initTState avail)).copied.length ∧
    ∀ k, k < (transferRun contentLen pacing fuel (initTState avail)).writes.length →
      (transferRun contentLen pacing fuel (initTState avail)).writes.getD k 0
        = (((transferRun contentLen pacing fuel (initTState avail)).copied.take (k + 1)).sum)
          * 100 / contentLen := by
  obtain ⟨h1, h2, h3⟩ := transfer_log contentLen hc fuel pacing (initTState avail) 0
    rfl (by simp [initTState]) (by intro k hk; simp [initTState] at hk)
  refine ⟨h1, fun k hk => ?_⟩
  have := h3 k hk
  simpa using this

/-- Claim C9 witness: declared length 100, a 50-byte stream, one iteration:
the single publication is `50 * 100 / 100 = 50`. -/
theorem C9_percent_published_witness :
    (transferRun 100 (fun _ => none) 1 (initTState 50)).writes.length
      = (transferRun 100 (fun _ => none) 1 (initTState 50)).copied.length ∧
    ∀ k, k < (transferRun 100 (fun _ => none) 1 (initTState 50)).writes.length →
      (transferRun 100 (fun _ => none) 1 (initTState 50)).writes.getD k 0
        = (((transferRun 100 (fun _ => none) 1 (initTState 50)).copied.take (k + 1)).sum)
          * 100 / 100 :=
  C9_percent_published 100 50 (fun _ => none) 1 (by decide)

/-- Claim C10 (confirmed).  For declared length > 0 and a stream that fails
mid-transfer (fewer bytes than declared), after loop exit `downloadUrl`
still renames the temporary file to the resolved destination name, never
removes any file, signals failure, and the destination holds exactly the
partial bytes (`totalCopied = avail < contentLen`). -/
theorem C10_partial_file_persists (fs : List String) (url tmpName : String)
    (contentLen avail : Nat) (pacing : Nat → Option Nat) (fuel : Nat)
    (hc : 0 < contentLen) (hlt : avail < contentLen)
    (hdone : (transferRun contentLen pacing fuel (initTState avail)).errSeen = true) :
    FsOp.renameFile tmpName (getUniqueFilename fs (getFilenameWith keepAscii url))
      ∈ (downloadUrl fs url tmpName true (some (contentLen, avail)) true pacing fuel).fsOps ∧
    hasRemove (downloadUrl fs url tmpName true (some (contentLen, avail)) true
      pacing fuel).fsOps = false ∧
    (downloadUrl fs url tmpName true (some (contentLen, avail)) true pacing fuel).finished
      = false ∧
    (downloadUrl fs url tmpName true (some (contentLen, avail)) true pacing fuel).totalCopied
      = avail := by
  have htc := transfer_total_at_exit contentLen avail pacing fuel hdone
  rw [downloadUrl_ok]
  refine ⟨by simp, rfl, ?_, htc⟩
  show decide ((transferRun contentLen pacing fuel (initTState avail)).totalCopied
    = contentLen) = false
  rw [htc]
  simp only [decide_eq_false_iff_not]
  omega

/-- Claim C10 witness: declared length 10, stream of 5 bytes. -/
theorem C10_partial_file_persists_witness :
    FsOp.renameFile "c1" (getUniqueFilename [] (getFilenameWith keepAscii
      "http://example.com/c"))
      ∈ (downloadUrl [] "http://example.com/c" "c1" true (some (10, 5)) true
        (fun _ => none) 1).fsOps ∧
    hasRemove (downloadUrl [] "http://example.com/c" "c1" true (some (10, 5)) true
      (fun _ => none) 1).fsOps = false ∧
    (downloadUrl [] "http://example.com/c" "c1" true (some (10, 5)) true
      (fun _ => none) 1).finished = false ∧
    (downloadUrl [] "http://example.com/c" "c1" true (some (10, 5)) true
      (fun _ => none) 1).totalCopied = 5 :=
  C10_partial_file_persists [] "http://example.com/c" "c1" 10 5 (fun _ => none) 1
    (by decide) (by decide) (by decide)

end Gowget
